import Mathlib

/-!
# micthing.cpp: the statistics engine of the raw audio visualizer

A shallow embedding of `src/micthing.cpp`: the class `AudioVisualizer`
(`get_color`, `update_stats`, `print_stats`) and `audio_callback`.

The program computes in C++ `float` (PortAudio delivers `paFloat32` samples).
The embedding keeps the float type and its primitive operations abstract in a
record `FloatOps α`, so that everything that only concerns the shape of the
history (lengths, eviction order, what reads and what writes) is proved for
every interpretation of the arithmetic.  Two interpretations are given:

* `binary32Ops`: the arithmetic of the program on finite values, every
  result rounded to the IEEE-754 binary32 grid (round to nearest, ties to
  even, gradual underflow);
* `exactOps`: an ordered field with exact operations (no rounding), the
  reference for what is stated in exact arithmetic.

Values that are not numbers (NaN, the infinities) are outside both
interpretations; the specification leaves them open.
-/

namespace MicThing

/-! ## Terminal color codes (lines 17-26) -/

def RESET : String := "\x1b[0m"
def BRIGHT : String := "\x1b[1m"
def DIM : String := "\x1b[2m"
def FG_RED : String := "\x1b[31m"
def FG_GREEN : String := "\x1b[32m"
def FG_YELLOW : String := "\x1b[33m"
def FG_CYAN : String := "\x1b[36m"
def FG_MAGENTA : String := "\x1b[35m"
def FG_WHITE : String := "\x1b[37m"

/-! ## Configuration (lines 29-38) -/

def DISPLAY_SAMPLES : Nat := 20
def PEAK_HISTORY : Nat := 10

/-- The primitive `float` operations `micthing.cpp` uses, over a carrier `α`
of float values.  `lit` reads a decimal literal (`0.1f`), `ofNat` is the
implicit conversion of an integer (`len`, `size()`) to `float`, `gt` is
`operator>`, `abs` and `sqrt` are `std::abs` and `std::sqrt`. -/
structure FloatOps (α : Type) where
  zero : α
  lit : ℚ → α
  ofNat : ℕ → α
  abs : α → α
  gt : α → α → Bool
  add : α → α → α
  mul : α → α → α
  div : α → α → α
  sqrt : α → α

variable {α : Type}

def COLOR_THRESH_LOW (ops : FloatOps α) : α := ops.lit (1 / 10)
def COLOR_THRESH_MED (ops : FloatOps α) : α := ops.lit (3 / 10)
def COLOR_THRESH_HIGH (ops : FloatOps α) : α := ops.lit (6 / 10)

/-- The data members of `class AudioVisualizer` (lines 48-49); a
`std::vector<float>` is a list, `begin()` its head. -/
structure AudioVisualizer (α : Type) where
  peak_values : List α
  rms_values : List α

/-- A default-constructed `AudioVisualizer` (line 118): both vectors empty. -/
def AudioVisualizer.fresh : AudioVisualizer α := ⟨[], []⟩

/-- Member function `AudioVisualizer::get_color` (lines 51-57). -/
def get_color (ops : FloatOps α) (value : α) : String :=
  let abs_val := ops.abs value
  if ops.gt abs_val (COLOR_THRESH_HIGH ops) then FG_RED ++ BRIGHT
  else if ops.gt abs_val (COLOR_THRESH_MED ops) then FG_YELLOW
  else if ops.gt abs_val (COLOR_THRESH_LOW ops) then FG_GREEN
  else FG_WHITE ++ DIM

/-- The rank of a color in the band order of the specification,
quiet < low < medium < high: `get_color` answers white and dim for quiet, green
for low, yellow for medium, red and bright for high. -/
def band_rank (color : String) : Nat :=
  if color = FG_WHITE ++ DIM then 0
  else if color = FG_GREEN then 1
  else if color = FG_YELLOW then 2
  else if color = FG_RED ++ BRIGHT then 3
  else 4

/-- One iteration of the loop of `update_stats` (lines 63-65) on the pair
`(peak, sum_sq)` and the sample `buffer[i]`. -/
def update_stats_step (ops : FloatOps α) (acc : α × α) (x : α) : α × α :=
  let abs_val := ops.abs x
  (if ops.gt abs_val acc.1 then abs_val else acc.1, ops.add acc.2 (ops.mul x x))

/-- The loop of `update_stats` (lines 60-66): `buffer` is the list
`buffer[0], ..., buffer[len-1]`, and the result is `(peak, sum_sq)`. -/
def update_stats_loop (ops : FloatOps α) (buffer : List α) : α × α :=
  buffer.foldl (update_stats_step ops) (ops.zero, ops.zero)

/-- The value of the local `peak` of `update_stats` at line 68. -/
def block_peak (ops : FloatOps α) (buffer : List α) : α :=
  (update_stats_loop ops buffer).1

/-- The value of the local `rms` of `update_stats` at line 67:
`std::sqrt(sum_sq / len)`.  For `len = 0` the quotient is `0.0f / 0`, which is
a NaN in IEEE arithmetic; what `div` answers there is left to the
interpretation, and nothing below is stated about that value. -/
def block_rms (ops : FloatOps α) (buffer : List α) : α :=
  ops.sqrt (ops.div (update_stats_loop ops buffer).2 (ops.ofNat buffer.length))

/-- Member function `AudioVisualizer::update_stats(buffer, len)` (lines 59-74), with the pair
`(buffer, len)` given as the list of the `len` samples read.  `push_back` is
append at the end, `erase(begin())` drops the head; the sizes compared at line
70 are far below `INT_MAX`, so the cast to `int` is the identity. -/
def update_stats (ops : FloatOps α) (buffer : List α) (v : AudioVisualizer α) :
    AudioVisualizer α :=
  let peak := block_peak ops buffer
  let rms := block_rms ops buffer
  let peak_values := v.peak_values ++ [peak]
  let rms_values := v.rms_values ++ [rms]
  if peak_values.length > PEAK_HISTORY then
    { peak_values := peak_values.tail, rms_values := rms_values.tail }
  else
    { peak_values := peak_values, rms_values := rms_values }

/-- The locals `(avg_peak, avg_rms)` of `print_stats` after line 81:
`std::accumulate(first, last, 0.0f)` adds from the left. -/
def print_stats_averages (ops : FloatOps α) (v : AudioVisualizer α) : α × α :=
  if v.peak_values.isEmpty then (ops.zero, ops.zero)
  else
    (ops.div (v.peak_values.foldl ops.add ops.zero) (ops.ofNat v.peak_values.length),
     ops.div (v.rms_values.foldl ops.add ops.zero) (ops.ofNat v.rms_values.length))

/-- Member function `AudioVisualizer::print_stats` (lines 76-86).  It is a non-const member
function, so it returns the object next to the string; `fixed3` is the
stream formatting `std::fixed << std::setprecision(3)` of one `float`. -/
def print_stats (ops : FloatOps α) (fixed3 : α → String) (v : AudioVisualizer α) :
    String × AudioVisualizer α :=
  let avg := print_stats_averages ops v
  (FG_CYAN ++ "Peak:" ++ fixed3 avg.1 ++ " " ++ FG_MAGENTA ++ "RMS:" ++ fixed3 avg.2 ++ RESET, v)

/-- The stream callback `audio_callback` (lines 89-101): `inputBuffer` is `none` for a null
pointer and otherwise the `framesPerBuffer` samples; the result is the text
written to `std::cout` and the visualizer behind `userData`.  `showpos3` is
the formatting `std::showpos << std::fixed << std::setprecision(3)`. -/
def audio_callback (ops : FloatOps α) (fixed3 showpos3 : α → String)
    (inputBuffer : Option (List α)) (v : AudioVisualizer α) : String × AudioVisualizer α :=
  match inputBuffer with
  | none => ("", v)
  | some buf =>
    let v1 := update_stats ops buf v
    let shown := (buf.take (min DISPLAY_SAMPLES buf.length)).foldl
      (fun out x => out ++ get_color ops x ++ showpos3 x ++ RESET ++ " ") "\r"
    let stats := print_stats ops fixed3 v1
    (shown ++ "| " ++ stats.1, stats.2)

/-- The visualizer after the callbacks delivered the blocks `blocks`, first
block first, to `update_stats`. -/
def process_blocks (ops : FloatOps α) (blocks : List (List α)) (v : AudioVisualizer α) :
    AudioVisualizer α :=
  blocks.foldl (fun w b => update_stats ops b w) v

/-! ## Interpretations of the arithmetic -/

/-- Exact arithmetic in an ordered field: no rounding anywhere, literals
unrounded.  `sqrt` is the square root of the field, when it has one.  This is
not the arithmetic of the program, which rounds every result to binary32
(`binary32Ops`); it is the reference for statements worded in exact
arithmetic.  It agrees with the program on `zero`, `abs` and `gt`, which do
not round.  A field has no NaN, so a quotient by zero is only the field's
convention; the statements on `exactOps` divide by the length of a non-empty
block or history. -/
def exactOps [LinearOrderedField α] (sqrt : α → α) : FloatOps α where
  zero := 0
  lit q := (q : α)
  ofNat n := (n : α)
  abs x := |x|
  gt a b := decide (b < a)
  add a b := a + b
  mul a b := a * b
  div a b := a / b
  sqrt := sqrt

/-- The integer nearest to `x`, the even one of the two when `x` is halfway. -/
def roundHalfEven [LinearOrderedField α] [FloorRing α] (x : α) : ℤ :=
  let f := ⌊x⌋
  let r := x - f
  if r < 1 / 2 then f
  else if 1 / 2 < r then f + 1
  else if f % 2 = 0 then f
  else f + 1

/-- Rounding of a real value to the IEEE-754 binary32 grid, to nearest with
ties to even: 24 significant bits, least exponent `-126`, so that the grid has
step `2 ^ (-149)` below `2 ^ (-126)` (subnormals).  Overflow to an infinity
(magnitudes from `2 ^ 128` on) is not represented. -/
def roundF32 [LinearOrderedField α] [FloorRing α] (x : α) : α :=
  let e := max (Int.log 2 |x|) (-126)
  let ulp : α := 2 ^ (e - 23)
  (roundHalfEven (x / ulp) : α) * ulp

/-- IEEE-754 binary32 arithmetic on finite values: each operation is the
exact one followed by `roundF32`; comparison and `abs` are exact.  `sqrt` is
the exact square root of the field.  Results that are no finite value in
IEEE arithmetic (a quotient by zero, an overflow) are not represented. -/
def binary32Ops [LinearOrderedField α] [FloorRing α] (sqrt : α → α) : FloatOps α where
  zero := 0
  lit q := roundF32 (q : α)
  ofNat n := roundF32 (n : α)
  abs x := |x|
  gt a b := decide (b < a)
  add a b := roundF32 (a + b)
  mul a b := roundF32 (a * b)
  div a b := roundF32 (a / b)
  sqrt x := roundF32 (sqrt x)

/-! ## The shape of the history -/

theorem update_stats_peak_values (ops : FloatOps α) (buffer : List α) (v : AudioVisualizer α) :
    (update_stats ops buffer v).peak_values =
      if PEAK_HISTORY < (v.peak_values ++ [block_peak ops buffer]).length then
        (v.peak_values ++ [block_peak ops buffer]).tail
      else v.peak_values ++ [block_peak ops buffer] := by
  unfold update_stats
  by_cases h : PEAK_HISTORY < (v.peak_values ++ [block_peak ops buffer]).length
  · simp only [gt_iff_lt, h, if_true]
  · simp only [gt_iff_lt, h, if_false]

theorem update_stats_rms_values (ops : FloatOps α) (buffer : List α) (v : AudioVisualizer α) :
    (update_stats ops buffer v).rms_values =
      if PEAK_HISTORY < (v.peak_values ++ [block_peak ops buffer]).length then
        (v.rms_values ++ [block_rms ops buffer]).tail
      else v.rms_values ++ [block_rms ops buffer] := by
  unfold update_stats
  by_cases h : PEAK_HISTORY < (v.peak_values ++ [block_peak ops buffer]).length
  · simp only [gt_iff_lt, h, if_true]
  · simp only [gt_iff_lt, h, if_false]

theorem process_blocks_append (ops : FloatOps α) (blocks : List (List α)) (b : List α)
    (v : AudioVisualizer α) :
    process_blocks ops (blocks ++ [b]) v = update_stats ops b (process_blocks ops blocks v) := by
  simp [process_blocks, List.foldl_append]

/-- Appending to the last ten entries of `l` and dropping the head when that
makes eleven gives the last ten entries of `l ++ [x]`. -/
theorem push_evict {β : Type} (l : List β) (x : β) (n : Nat) :
    (if n < (l.drop (l.length - n) ++ [x]).length then (l.drop (l.length - n) ++ [x]).tail
      else l.drop (l.length - n) ++ [x]) = (l ++ [x]).drop ((l ++ [x]).length - n) := by
  have hlen : (l.drop (l.length - n) ++ [x]).length = l.length - (l.length - n) + 1 := by
    simp
  by_cases h : n ≤ l.length
  · have h1 : n < (l.drop (l.length - n) ++ [x]).length := by rw [hlen]; omega
    rw [if_pos h1, ← List.drop_one]
    have h2 : (l ++ [x]).length - n = l.length - n + 1 := by simp; omega
    have h3 : l.drop (l.length - n) ++ [x] = (l ++ [x]).drop (l.length - n) :=
      (List.drop_append_of_le_length (by omega)).symm
    rw [h2, h3, List.drop_drop]
  · have h1 : ¬ n < (l.drop (l.length - n) ++ [x]).length := by rw [hlen]; omega
    rw [if_neg h1]
    have h2 : (l ++ [x]).length - n = 0 := by simp; omega
    have h3 : l.length - n = 0 := by omega
    rw [h2, h3]; simp

/-- The history after any run from a fresh visualizer: the statistics of the
blocks, all but the last `PEAK_HISTORY` dropped. -/
theorem process_blocks_fresh (ops : FloatOps α) (blocks : List (List α)) :
    (process_blocks ops blocks AudioVisualizer.fresh).peak_values
        = (blocks.map (block_peak ops)).drop (blocks.length - PEAK_HISTORY) ∧
    (process_blocks ops blocks AudioVisualizer.fresh).rms_values
        = (blocks.map (block_rms ops)).drop (blocks.length - PEAK_HISTORY) := by
  induction blocks using List.reverseRecOn with
  | nil => simp [process_blocks, AudioVisualizer.fresh]
  | append_singleton bs b ih =>
    obtain ⟨ihp, ihr⟩ := ih
    have hp := push_evict (bs.map (block_peak ops)) (block_peak ops b) PEAK_HISTORY
    have hr := push_evict (bs.map (block_rms ops)) (block_rms ops b) PEAK_HISTORY
    have hlen : ((bs.map (block_peak ops)).drop ((bs.map (block_peak ops)).length - PEAK_HISTORY)
          ++ [block_peak ops b]).length
        = ((bs.map (block_rms ops)).drop ((bs.map (block_rms ops)).length - PEAK_HISTORY)
          ++ [block_rms ops b]).length := by
      simp
    rw [← hlen] at hr
    simp only [List.length_map] at hp hr
    rw [process_blocks_append, update_stats_peak_values, update_stats_rms_values, ihp, ihr]
    refine ⟨?_, ?_⟩
    · rw [hp]; simp
    · rw [hr]; simp

/-- The peak `update_stats` appends stays the last entry: eviction takes the head. -/
theorem update_stats_last (ops : FloatOps α) (buffer : List α) (v : AudioVisualizer α) :
    (update_stats ops buffer v).peak_values.getLast? = some (block_peak ops buffer) := by
  rw [update_stats_peak_values]
  by_cases h : PEAK_HISTORY < (v.peak_values ++ [block_peak ops buffer]).length
  · rw [if_pos h]
    cases hv : v.peak_values with
    | nil => rw [hv] at h; simp [PEAK_HISTORY] at h
    | cons a t => simp
  · rw [if_neg h]; simp

/-- The RMS `update_stats` appends: `rms_values` afterwards is the old vector
with the new entry at the end, less its head when line 70 evicts. -/
theorem update_stats_rms_appended (ops : FloatOps α) (buffer : List α) (v : AudioVisualizer α) :
    (update_stats ops buffer v).rms_values = v.rms_values ++ [block_rms ops buffer] ∨
    (update_stats ops buffer v).rms_values = (v.rms_values ++ [block_rms ops buffer]).tail := by
  rw [update_stats_rms_values]
  by_cases h : PEAK_HISTORY < (v.peak_values ++ [block_peak ops buffer]).length
  · rw [if_pos h]; exact Or.inr rfl
  · rw [if_neg h]; exact Or.inl rfl

/-! ## The loop of `update_stats` -/

theorem update_stats_loop_split (ops : FloatOps α) (l : List α) (p q : α) :
    l.foldl (update_stats_step ops) (p, q)
      = (l.foldl (fun m x => if ops.gt (ops.abs x) m then ops.abs x else m) p,
         l.foldl (fun t x => ops.add t (ops.mul x x)) q) := by
  induction l generalizing p q with
  | nil => rfl
  | cons a l ih => simp only [List.foldl_cons, update_stats_step, ih]

section Exact

variable [LinearOrderedField α]

theorem foldl_add_eq_sum (l : List α) (a : α) : l.foldl (fun x y => x + y) a = a + l.sum := by
  induction l generalizing a with
  | nil => simp
  | cons b l ih => simp [List.foldl_cons, ih, add_assoc]

theorem exact_sum_sq (sqrt : α → α) (l : List α) :
    (update_stats_loop (exactOps sqrt) l).2 = (l.map (fun x => x * x)).sum := by
  have h : ∀ (l : List α) (q : α),
      l.foldl (fun t x => t + x * x) q = q + (l.map (fun x => x * x)).sum := by
    intro l
    induction l with
    | nil => intro q; simp
    | cons b l ih => intro q; simp [List.foldl_cons, ih, add_assoc]
  rw [update_stats_loop, update_stats_loop_split]
  simpa [exactOps] using h l 0

/-- The running maximum the loop keeps in `peak`, in exact comparison. -/
theorem exact_peak_fold (sqrt : α → α) (l : List α) :
    block_peak (exactOps sqrt) l = l.foldl (fun m x => if m < |x| then |x| else m) 0 := by
  rw [block_peak, update_stats_loop, update_stats_loop_split]
  simp [exactOps]

theorem peak_fold_ge_init (l : List α) (p : α) :
    p ≤ l.foldl (fun m x => if m < |x| then |x| else m) p := by
  induction l generalizing p with
  | nil => simp
  | cons a l ih =>
    rw [List.foldl_cons]
    refine le_trans ?_ (ih _)
    split_ifs with h
    · exact le_of_lt h
    · exact le_refl p

theorem peak_fold_ge_mem (l : List α) (p : α) :
    ∀ x ∈ l, |x| ≤ l.foldl (fun m x => if m < |x| then |x| else m) p := by
  induction l generalizing p with
  | nil => intro x hx; simp at hx
  | cons a l ih =>
    intro x hx
    rw [List.foldl_cons]
    rcases List.mem_cons.1 hx with rfl | hx
    · refine le_trans ?_ (peak_fold_ge_init l _)
      split_ifs with h
      · exact le_refl _
      · exact not_lt.1 h
    · exact ih _ x hx

theorem peak_fold_attained (l : List α) (p : α) :
    l.foldl (fun m x => if m < |x| then |x| else m) p = p ∨
      ∃ x ∈ l, l.foldl (fun m x => if m < |x| then |x| else m) p = |x| := by
  induction l generalizing p with
  | nil => left; rfl
  | cons a l ih =>
    rw [List.foldl_cons]
    rcases ih (if p < |a| then |a| else p) with h | ⟨x, hx, h⟩
    · by_cases hpa : p < |a|
      · right
        refine ⟨a, List.mem_cons_self _ _, ?_⟩
        rw [h, if_pos hpa]
      · left
        rw [h, if_neg hpa]
    · exact Or.inr ⟨x, List.mem_cons_of_mem _ hx, h⟩

/-- The peak of a block in exact comparison: non-negative, an upper bound of
every `|x|`, and, for a non-empty block, one of them. -/
theorem exact_peak_spec (sqrt : α → α) (l : List α) :
    0 ≤ block_peak (exactOps sqrt) l ∧
    (∀ x ∈ l, |x| ≤ block_peak (exactOps sqrt) l) ∧
    (l ≠ [] → ∃ x ∈ l, block_peak (exactOps sqrt) l = |x|) := by
  rw [exact_peak_fold]
  refine ⟨peak_fold_ge_init l 0, peak_fold_ge_mem l 0, ?_⟩
  intro hne
  rcases peak_fold_attained l 0 with h | h
  · cases l with
    | nil => exact absurd rfl hne
    | cons a t =>
      refine ⟨a, List.mem_cons_self _ _, ?_⟩
      have h1 := peak_fold_ge_mem (a :: t) 0 a (List.mem_cons_self _ _)
      rw [h] at h1 ⊢
      exact le_antisymm (abs_nonneg a) h1
  · exact h

end Exact

/-! ## `get_color` in exact comparison -/

section ExactColor

variable [LinearOrderedField α]

theorem exact_get_color (sqrt : α → α) (v : α) :
    get_color (exactOps sqrt) v =
      if 6 / 10 < |v| then FG_RED ++ BRIGHT
      else if 3 / 10 < |v| then FG_YELLOW
      else if 1 / 10 < |v| then FG_GREEN
      else FG_WHITE ++ DIM := by
  simp [get_color, COLOR_THRESH_HIGH, COLOR_THRESH_MED, COLOR_THRESH_LOW, exactOps]

theorem band_rank_colors :
    band_rank (FG_WHITE ++ DIM) = 0 ∧ band_rank FG_GREEN = 1 ∧ band_rank FG_YELLOW = 2 ∧
      band_rank (FG_RED ++ BRIGHT) = 3 := by
  decide

theorem exact_band_rank (sqrt : α → α) (v : α) :
    band_rank (get_color (exactOps sqrt) v) =
      if 6 / 10 < |v| then 3 else if 3 / 10 < |v| then 2 else if 1 / 10 < |v| then 1 else 0 := by
  rw [exact_get_color]
  obtain ⟨h0, h1, h2, h3⟩ := band_rank_colors
  split_ifs <;> assumption

/-- The four answers of the comparison chain of `get_color`, for thresholds
in increasing order. -/
theorem color_chain (lo mid hi a : α) (h1 : lo ≤ mid) (h2 : mid ≤ hi) :
    ((if hi < a then FG_RED ++ BRIGHT else if mid < a then FG_YELLOW
        else if lo < a then FG_GREEN else FG_WHITE ++ DIM) = FG_WHITE ++ DIM ↔ a ≤ lo) ∧
    ((if hi < a then FG_RED ++ BRIGHT else if mid < a then FG_YELLOW
        else if lo < a then FG_GREEN else FG_WHITE ++ DIM) = FG_GREEN ↔ lo < a ∧ a ≤ mid) ∧
    ((if hi < a then FG_RED ++ BRIGHT else if mid < a then FG_YELLOW
        else if lo < a then FG_GREEN else FG_WHITE ++ DIM) = FG_YELLOW ↔ mid < a ∧ a ≤ hi) ∧
    ((if hi < a then FG_RED ++ BRIGHT else if mid < a then FG_YELLOW
        else if lo < a then FG_GREEN else FG_WHITE ++ DIM) = FG_RED ++ BRIGHT ↔ hi < a) := by
  have hd1 : FG_RED ++ BRIGHT ≠ FG_YELLOW := by decide
  have hd2 : FG_RED ++ BRIGHT ≠ FG_GREEN := by decide
  have hd3 : FG_RED ++ BRIGHT ≠ FG_WHITE ++ DIM := by decide
  have hd4 : FG_YELLOW ≠ FG_GREEN := by decide
  have hd5 : FG_YELLOW ≠ FG_WHITE ++ DIM := by decide
  have hd6 : FG_GREEN ≠ FG_WHITE ++ DIM := by decide
  refine ⟨?_, ?_, ?_, ?_⟩
  · split_ifs with c1 c2 c3
    · exact ⟨fun h => absurd h hd3, fun h => absurd c1 (not_lt.2 (by linarith))⟩
    · exact ⟨fun h => absurd h hd5, fun h => absurd c2 (not_lt.2 (by linarith))⟩
    · exact ⟨fun h => absurd h hd6, fun h => absurd c3 (not_lt.2 h)⟩
    · exact ⟨fun _ => not_lt.1 c3, fun _ => rfl⟩
  · split_ifs with c1 c2 c3
    · exact ⟨fun h => absurd h hd2, fun h => absurd c1 (not_lt.2 (by linarith [h.2]))⟩
    · exact ⟨fun h => absurd h hd4, fun h => absurd c2 (not_lt.2 h.2)⟩
    · exact ⟨fun _ => ⟨c3, not_lt.1 c2⟩, fun _ => rfl⟩
    · exact ⟨fun h => absurd h.symm hd6, fun h => absurd h.1 c3⟩
  · split_ifs with c1 c2 c3
    · exact ⟨fun h => absurd h hd1, fun h => absurd c1 (not_lt.2 h.2)⟩
    · exact ⟨fun _ => ⟨c2, not_lt.1 c1⟩, fun _ => rfl⟩
    · exact ⟨fun h => absurd h.symm hd4, fun h => absurd h.1 c2⟩
    · exact ⟨fun h => absurd h.symm hd5, fun h => absurd h.1 c2⟩
  · split_ifs with c1 c2 c3
    · exact ⟨fun _ => c1, fun _ => rfl⟩
    · exact ⟨fun h => absurd h.symm hd1, fun h => absurd h c1⟩
    · exact ⟨fun h => absurd h.symm hd2, fun h => absurd h c1⟩
    · exact ⟨fun h => absurd h.symm hd3, fun h => absurd h c1⟩

end ExactColor

/-! ## The statistics of one block in exact real arithmetic -/

theorem sum_sq_nonneg (l : List ℝ) : 0 ≤ (l.map (fun x => x * x)).sum := by
  apply List.sum_nonneg
  intro y hy
  obtain ⟨x, _, rfl⟩ := List.mem_map.1 hy
  exact mul_self_nonneg x

theorem sum_sq_eq_zero_iff (l : List ℝ) :
    (l.map (fun x => x * x)).sum = 0 ↔ ∀ x ∈ l, x = 0 := by
  induction l with
  | nil => simp
  | cons a l ih =>
    have h1 := sum_sq_nonneg l
    have h2 := mul_self_nonneg a
    simp only [List.map_cons, List.sum_cons, List.mem_cons, forall_eq_or_imp]
    constructor
    · intro h
      have ha : a * a = 0 := by linarith
      have hl : (l.map (fun x => x * x)).sum = 0 := by linarith
      exact ⟨mul_self_eq_zero.1 ha, ih.1 hl⟩
    · rintro ⟨ha, hl⟩
      rw [ih.2 hl, ha]; simp

theorem sum_sq_le (l : List ℝ) (m : ℝ) (h : ∀ x ∈ l, |x| ≤ m) :
    (l.map (fun x => x * x)).sum ≤ l.length * m ^ 2 := by
  induction l with
  | nil => simp
  | cons a l ih =>
    have h1 := ih (fun x hx => h x (List.mem_cons_of_mem _ hx))
    have h2 : |a| ≤ m := h a (List.mem_cons_self _ _)
    have h3 : a * a ≤ m ^ 2 := by
      have : a * a = |a| ^ 2 := by rw [sq_abs]; ring
      rw [this]
      exact pow_le_pow_left₀ (abs_nonneg a) h2 2
    simp only [List.map_cons, List.sum_cons, List.length_cons, Nat.cast_add, Nat.cast_one]
    linarith

theorem exact_rms (l : List ℝ) :
    block_rms (exactOps Real.sqrt) l
      = Real.sqrt ((l.map (fun x => x * x)).sum / (l.length : ℝ)) := by
  rw [block_rms, exact_sum_sq]
  rfl

theorem exact_rms_le_peak (l : List ℝ) (hne : l ≠ []) :
    block_rms (exactOps Real.sqrt) l ≤ block_peak (exactOps Real.sqrt) l := by
  obtain ⟨h0, hub, _⟩ := exact_peak_spec Real.sqrt l
  rw [exact_rms, Real.sqrt_le_iff]
  refine ⟨h0, ?_⟩
  have hlen : (0 : ℝ) < l.length := by
    have : 0 < l.length := List.length_pos.2 hne
    exact_mod_cast this
  rw [div_le_iff₀ hlen]
  have := sum_sq_le l _ hub
  linarith

theorem exact_averages (sqrt : ℝ → ℝ) (v : AudioVisualizer ℝ) (h : v.peak_values ≠ []) :
    print_stats_averages (exactOps sqrt) v
      = (v.peak_values.sum / v.peak_values.length, v.rms_values.sum / v.rms_values.length) := by
  have he : v.peak_values.isEmpty = false := by
    cases hv : v.peak_values with
    | nil => exact absurd hv h
    | cons a l => rfl
  have hp := foldl_add_eq_sum v.peak_values 0
  have hr := foldl_add_eq_sum v.rms_values 0
  simp only [zero_add] at hp hr
  simp only [print_stats_averages, he, exactOps, hp, hr]
  rfl

/-! ## Rounding to binary32 -/

theorem roundHalfEven_nonneg (x : ℝ) (hx : 0 ≤ x) : 0 ≤ roundHalfEven x := by
  have hf : 0 ≤ ⌊x⌋ := Int.floor_nonneg.2 hx
  unfold roundHalfEven
  simp only
  split_ifs <;> omega

theorem roundHalfEven_small (x : ℝ) (h0 : 0 ≤ x) (h1 : x < 1 / 2) : roundHalfEven x = 0 := by
  have hf : ⌊x⌋ = 0 := Int.floor_eq_zero_iff.2 ⟨h0, by linarith⟩
  unfold roundHalfEven
  simp only [hf, Int.cast_zero, sub_zero, if_pos h1]

theorem roundHalfEven_intCast (n : ℤ) : roundHalfEven (n : ℝ) = n := by
  unfold roundHalfEven
  simp

theorem roundF32_nonneg (x : ℝ) (hx : 0 ≤ x) : 0 ≤ roundF32 x := by
  unfold roundF32
  simp only
  have h1 : (0 : ℝ) < 2 ^ (max (Int.log 2 |x|) (-126) - 23) := by positivity
  have h2 : 0 ≤ roundHalfEven (x / 2 ^ (max (Int.log 2 |x|) (-126) - 23)) :=
    roundHalfEven_nonneg _ (div_nonneg hx (le_of_lt h1))
  have h3 : (0 : ℝ) ≤ (roundHalfEven (x / 2 ^ (max (Int.log 2 |x|) (-126) - 23)) : ℝ) := by
    exact_mod_cast h2
  exact mul_nonneg h3 (le_of_lt h1)

theorem roundF32_zero : roundF32 (0 : ℝ) = 0 := by
  unfold roundF32
  simp [roundHalfEven_small]

theorem log2_zpow (z : ℤ) : Int.log 2 |(2 : ℝ) ^ z| = z := by
  rw [abs_of_pos (by positivity)]
  have h := Int.log_zpow (R := ℝ) (b := 2) (by norm_num) z
  simpa using h

/-- A power of two in the normal range is a binary32 value. -/
theorem roundF32_zpow (z : ℤ) (hz : -126 ≤ z) : roundF32 ((2 : ℝ) ^ z) = 2 ^ z := by
  unfold roundF32
  simp only [log2_zpow, max_eq_left hz]
  have h1 : (2 : ℝ) ^ z / 2 ^ (z - 23) = ((2 ^ 23 : ℤ) : ℝ) := by
    rw [← zpow_sub₀ (by norm_num : (2 : ℝ) ≠ 0)]
    have : z - (z - 23) = 23 := by ring
    rw [this]; norm_num
  rw [h1, roundHalfEven_intCast]
  have h2 : (((2 ^ 23 : ℤ)) : ℝ) = (2 : ℝ) ^ (23 : ℤ) := by norm_num
  rw [h2, ← zpow_add₀ (by norm_num : (2 : ℝ) ≠ 0)]
  congr 1; ring

/-- Underflow: a power of two below half the least subnormal rounds to zero. -/
theorem roundF32_zpow_underflow (z : ℤ) (hz : z < -150) : roundF32 ((2 : ℝ) ^ z) = 0 := by
  unfold roundF32
  have hm : max z (-126) = -126 := max_eq_right (by omega)
  simp only [log2_zpow, hm]
  have h1 : (2 : ℝ) ^ z / 2 ^ ((-126 : ℤ) - 23) = 2 ^ (z + 149) := by
    rw [← zpow_sub₀ (by norm_num : (2 : ℝ) ≠ 0)]
    have e : z - ((-126 : ℤ) - 23) = z + 149 := by ring
    rw [e]
  have h2 : (2 : ℝ) ^ (z + 149) < 1 / 2 := by
    have h3 : (2 : ℝ) ^ (z + 149) ≤ 2 ^ (-2 : ℤ) :=
      zpow_le_zpow_right₀ (by norm_num) (by omega)
    have h4 : (2 : ℝ) ^ (-2 : ℤ) = 1 / 4 := by norm_num
    rw [h4] at h3
    linarith
  rw [h1, roundHalfEven_small _ (by positivity) h2]
  simp

theorem roundHalfEven_near (x : ℝ) (n : ℤ) (h : |x - n| < 1 / 2) : roundHalfEven x = n := by
  obtain ⟨h1, h2⟩ := abs_lt.1 h
  unfold roundHalfEven
  by_cases hx : (n : ℝ) ≤ x
  · have hf : ⌊x⌋ = n := Int.floor_eq_iff.2 ⟨hx, by linarith⟩
    simp only [hf]
    rw [if_pos h2]
  · have hf : ⌊x⌋ = n - 1 := Int.floor_eq_iff.2 ⟨by push_cast; linarith, by push_cast; linarith⟩
    simp only [hf]
    have e1 : ¬ (x - ((n - 1 : ℤ) : ℝ) < 1 / 2) := by push_cast; linarith
    have e2 : 1 / 2 < x - ((n - 1 : ℤ) : ℝ) := by push_cast; linarith
    rw [if_neg e1, if_pos e2]
    ring

theorem log2_of_bounds (x : ℝ) (e : ℤ) (h1 : (2 : ℝ) ^ e ≤ x) (h2 : x < 2 ^ (e + 1)) :
    Int.log 2 |x| = e := by
  have hx : 0 < x := lt_of_lt_of_le (by positivity) h1
  rw [abs_of_pos hx]
  have a := (Int.zpow_le_iff_le_log (R := ℝ) (b := 2) (by norm_num) hx (x := e)).1
    (by simpa using h1)
  have b := (Int.lt_zpow_iff_log_lt (R := ℝ) (b := 2) (by norm_num) hx (x := e + 1)).1
    (by simpa using h2)
  omega

/-- The binary32 value of a positive normal number `x` with `2 ^ e ≤ x < 2 ^ (e + 1)`
is `n * 2 ^ (e - 23)` for the integer `n` within one half of `x / 2 ^ (e - 23)`. -/
theorem roundF32_of_bounds (x : ℝ) (e n : ℤ) (he : -126 ≤ e) (h1 : (2 : ℝ) ^ e ≤ x)
    (h2 : x < 2 ^ (e + 1)) (hn : |x / 2 ^ (e - 23) - n| < 1 / 2) :
    roundF32 x = n * 2 ^ (e - 23) := by
  unfold roundF32
  simp only [log2_of_bounds x e h1 h2, max_eq_left he]
  rw [roundHalfEven_near _ n hn]

/-- The constants `0.1f`, `0.3f`, `0.6f` of lines 36-38 in binary32. -/
theorem binary32_thresholds :
    COLOR_THRESH_LOW (binary32Ops Real.sqrt) = 13421773 / 134217728 ∧
    COLOR_THRESH_MED (binary32Ops Real.sqrt) = 10066330 / 33554432 ∧
    COLOR_THRESH_HIGH (binary32Ops Real.sqrt) = 10066330 / 16777216 := by
  have hl := roundF32_of_bounds (1 / 10) (-4) 13421773 (by norm_num) (by norm_num)
    (by norm_num) (by norm_num [abs_lt])
  have hm := roundF32_of_bounds (3 / 10) (-2) 10066330 (by norm_num) (by norm_num)
    (by norm_num) (by norm_num [abs_lt])
  have hh := roundF32_of_bounds (6 / 10) (-1) 10066330 (by norm_num) (by norm_num)
    (by norm_num) (by norm_num [abs_lt])
  refine ⟨?_, ?_, ?_⟩
  · simp only [COLOR_THRESH_LOW, binary32Ops]
    push_cast
    rw [hl]; norm_num
  · simp only [COLOR_THRESH_MED, binary32Ops]
    push_cast
    rw [hm]; norm_num
  · simp only [COLOR_THRESH_HIGH, binary32Ops]
    push_cast
    rw [hh]; norm_num

theorem binary32_get_color (v : ℝ) :
    get_color (binary32Ops Real.sqrt) v =
      if 10066330 / 16777216 < |v| then FG_RED ++ BRIGHT
      else if 10066330 / 33554432 < |v| then FG_YELLOW
      else if 13421773 / 134217728 < |v| then FG_GREEN
      else FG_WHITE ++ DIM := by
  obtain ⟨hl, hm, hh⟩ := binary32_thresholds
  simp only [get_color, hl, hm, hh]
  simp [binary32Ops]

theorem binary32_band_rank (v : ℝ) :
    band_rank (get_color (binary32Ops Real.sqrt) v) =
      if 10066330 / 16777216 < |v| then 3 else if 10066330 / 33554432 < |v| then 2
      else if 13421773 / 134217728 < |v| then 1 else 0 := by
  rw [binary32_get_color]
  obtain ⟨h0, h1, h2, h3⟩ := band_rank_colors
  split_ifs <;> assumption

/-! ## The RMS of one block in binary32 arithmetic -/

theorem binary32_rms (l : List ℝ) :
    block_rms (binary32Ops Real.sqrt) l
      = roundF32 (Real.sqrt (roundF32
          (l.foldl (fun t x => roundF32 (t + roundF32 (x * x))) 0 / roundF32 (l.length : ℝ)))) := by
  rw [block_rms, update_stats_loop, update_stats_loop_split]
  rfl

theorem binary32_sum_sq_zeros (l : List ℝ) (h : ∀ x ∈ l, x = 0) :
    l.foldl (fun t x => roundF32 (t + roundF32 (x * x))) 0 = 0 := by
  induction l with
  | nil => rfl
  | cons a l ih =>
    have ha : a = 0 := h a (List.mem_cons_self _ _)
    rw [List.foldl_cons, ha]
    simp only [mul_zero, roundF32_zero, add_zero]
    exact ih (fun x hx => h x (List.mem_cons_of_mem _ hx))

theorem binary32_rms_nonneg (l : List ℝ) : 0 ≤ block_rms (binary32Ops Real.sqrt) l := by
  rw [binary32_rms]
  exact roundF32_nonneg _ (Real.sqrt_nonneg _)

theorem binary32_rms_zeros (l : List ℝ) (h : ∀ x ∈ l, x = 0) :
    block_rms (binary32Ops Real.sqrt) l = 0 := by
  rw [binary32_rms, binary32_sum_sq_zeros l h]
  simp [roundF32_zero]

/-- The square of `2 ^ (-100)` underflows, so the block `[2 ^ (-100)]` has
sum of squares `0` and RMS `0` in binary32 arithmetic. -/
theorem binary32_rms_underflow :
    block_rms (binary32Ops Real.sqrt) [(2 : ℝ) ^ (-100 : ℤ)] = 0 := by
  rw [binary32_rms]
  have hsq : (2 : ℝ) ^ (-100 : ℤ) * 2 ^ (-100 : ℤ) = 2 ^ (-200 : ℤ) := by
    rw [← zpow_add₀ (by norm_num : (2 : ℝ) ≠ 0)]; norm_num
  simp only [List.foldl_cons, List.foldl_nil, hsq, zero_add]
  rw [roundF32_zpow_underflow (-200) (by norm_num)]
  simp [roundF32_zero]

/-! ## A block whose RMS rounds above its peak in binary32 arithmetic -/

/-- Below the least normal number the binary32 grid has the fixed step
`2 ^ (-149)`: a positive `x < 2 ^ (-126)` rounds to `n * 2 ^ (-149)` for the
integer `n` within one half of `x / 2 ^ (-149)`. -/
theorem roundF32_subnormal (x : ℝ) (n : ℤ) (h0 : 0 < x) (h : x < 2 ^ (-126 : ℤ))
    (hn : |x / 2 ^ (-149 : ℤ) - n| < 1 / 2) : roundF32 x = n * 2 ^ (-149 : ℤ) := by
  have hlog : Int.log 2 |x| < -126 := by
    rw [abs_of_pos h0]
    exact (Int.lt_zpow_iff_log_lt (R := ℝ) (b := 2) (by norm_num) h0 (x := -126)).1
      (by simpa using h)
  unfold roundF32
  have hm : max (Int.log 2 |x|) (-126) = -126 := max_eq_right (le_of_lt hlog)
  simp only [hm]
  have e : ((-126 : ℤ) - 23) = -149 := by norm_num
  rw [e, roundHalfEven_near _ n hn]

theorem roundF32_one : roundF32 (1 : ℝ) = 1 := by
  have h := roundF32_zpow 0 (by norm_num)
  simpa using h

/-- The sample `7 * 2 ^ (-77)` is a binary32 value. -/
theorem roundF32_sample : roundF32 ((7 : ℝ) * 2 ^ (-77 : ℤ)) = 7 * 2 ^ (-77 : ℤ) := by
  have h := roundF32_of_bounds (7 * 2 ^ (-77 : ℤ)) (-75) 14680064 (by norm_num)
    (by norm_num) (by norm_num) (by norm_num [abs_lt])
  rw [h]; norm_num

/-- Its square `49 * 2 ^ (-154)` lies between one and two steps of the
subnormal grid, nearer to two: it rounds up to `2 ^ (-148)`. -/
theorem roundF32_sample_sq :
    roundF32 ((7 : ℝ) * 2 ^ (-77 : ℤ) * (7 * 2 ^ (-77 : ℤ))) = 2 ^ (-148 : ℤ) := by
  have h := roundF32_subnormal (7 * 2 ^ (-77 : ℤ) * (7 * 2 ^ (-77 : ℤ))) 2 (by positivity)
    (by norm_num) (by norm_num [abs_lt])
  rw [h]; norm_num

theorem roundF32_two_steps : roundF32 ((2 : ℝ) ^ (-148 : ℤ)) = 2 ^ (-148 : ℤ) := by
  have h := roundF32_subnormal ((2 : ℝ) ^ (-148 : ℤ)) 2 (by positivity)
    (by norm_num) (by norm_num [abs_lt])
  rw [h]; norm_num

theorem sqrt_two_steps : Real.sqrt ((2 : ℝ) ^ (-148 : ℤ)) = 2 ^ (-74 : ℤ) := by
  have e : (2 : ℝ) ^ (-148 : ℤ) = (2 ^ (-74 : ℤ)) ^ 2 := by norm_num
  rw [e]
  exact Real.sqrt_sq (by positivity)

/-- In binary32 arithmetic the one-sample block `[7 * 2 ^ (-77)]` has the RMS
`2 ^ (-74)` and the peak `7 * 2 ^ (-77)`. -/
theorem binary32_rms_rounds_up :
    block_rms (binary32Ops Real.sqrt) [(7 : ℝ) * 2 ^ (-77 : ℤ)] = 2 ^ (-74 : ℤ) ∧
    block_peak (binary32Ops Real.sqrt) [(7 : ℝ) * 2 ^ (-77 : ℤ)] = 7 * 2 ^ (-77 : ℤ) := by
  constructor
  · rw [binary32_rms]
    simp only [List.foldl_cons, List.foldl_nil, zero_add, List.length_singleton, Nat.cast_one,
      roundF32_sample_sq, roundF32_two_steps, roundF32_one, div_one, sqrt_two_steps]
    exact roundF32_zpow (-74) (by norm_num)
  · simp only [block_peak, update_stats_loop, update_stats_loop_split]
    have hp : (0 : ℝ) < 7 * 2 ^ (-77 : ℤ) := by positivity
    simp only [binary32Ops, List.foldl_cons, List.foldl_nil, abs_of_pos hp, hp, decide_True,
      if_true]

/-- The visualizer after that one block, and the averages `print_stats`
computes on it in binary32 arithmetic: the RMS and the peak of the block. -/
theorem binary32_averages_round_up :
    print_stats_averages (binary32Ops Real.sqrt)
        (process_blocks (binary32Ops Real.sqrt) [[(7 : ℝ) * 2 ^ (-77 : ℤ)]]
          AudioVisualizer.fresh)
      = (7 * 2 ^ (-77 : ℤ), 2 ^ (-74 : ℤ)) := by
  obtain ⟨hr, hp⟩ := binary32_rms_rounds_up
  have hst : process_blocks (binary32Ops Real.sqrt) [[(7 : ℝ) * 2 ^ (-77 : ℤ)]]
      AudioVisualizer.fresh = ⟨[7 * 2 ^ (-77 : ℤ)], [2 ^ (-74 : ℤ)]⟩ := by
    simp only [process_blocks, List.foldl_cons, List.foldl_nil, update_stats, hr, hp,
      AudioVisualizer.fresh, List.nil_append, List.length_singleton, PEAK_HISTORY]
    simp
  rw [hst]
  simp only [print_stats_averages, List.isEmpty_cons, List.foldl_cons, List.foldl_nil,
    List.length_singleton]
  have h74 : roundF32 ((2 : ℝ) ^ (-74 : ℤ)) = 2 ^ (-74 : ℤ) := roundF32_zpow (-74) (by norm_num)
  simp only [binary32Ops, zero_add, Nat.cast_one, roundF32_sample, roundF32_one, div_one, h74,
    Bool.false_eq_true, if_false]

/-! ## Claims on the shape of the history and on reading it -/

/-- C1: after any `k` calls of `update_stats` on a freshly constructed
`AudioVisualizer` (whatever the blocks, non-empty ones in particular), both
`peak_values` and `rms_values` have length exactly `min k 10`; hence the
length never exceeds `PEAK_HISTORY = 10` and is not `0` once `k ≥ 1`. -/
theorem C1_history_length (ops : FloatOps α) (blocks : List (List α)) :
    (process_blocks ops blocks AudioVisualizer.fresh).peak_values.length = min blocks.length 10 ∧
    (process_blocks ops blocks AudioVisualizer.fresh).rms_values.length = min blocks.length 10 ∧
    (process_blocks ops blocks AudioVisualizer.fresh).peak_values.length ≤ PEAK_HISTORY ∧
    (process_blocks ops blocks AudioVisualizer.fresh).rms_values.length ≤ PEAK_HISTORY ∧
    (1 ≤ blocks.length →
      (process_blocks ops blocks AudioVisualizer.fresh).peak_values.length ≠ 0 ∧
      (process_blocks ops blocks AudioVisualizer.fresh).rms_values.length ≠ 0) := by
  obtain ⟨hp, hr⟩ := process_blocks_fresh ops blocks
  have h1 : (process_blocks ops blocks AudioVisualizer.fresh).peak_values.length
      = min blocks.length 10 := by
    rw [hp]; simp [PEAK_HISTORY]; omega
  have h2 : (process_blocks ops blocks AudioVisualizer.fresh).rms_values.length
      = min blocks.length 10 := by
    rw [hr]; simp [PEAK_HISTORY]; omega
  refine ⟨h1, h2, ?_, ?_, ?_⟩
  · rw [h1]; simp [PEAK_HISTORY]
  · rw [h2]; simp [PEAK_HISTORY]
  · intro hk
    rw [h1, h2]
    omega

/-- C2: eviction is first-in first-out.  After the blocks `b_1 .. b_k` went
through `update_stats` on a fresh visualizer, `peak_values` (resp.
`rms_values`) is, in order, the peaks (resp. RMS values) of the last
`min k 10` blocks.  With eleven blocks the history is the one of blocks
`2 .. 11` alone: the state, the averages and the text of `print_stats` are
those reached without the first block. -/
theorem C2_fifo_eviction (ops : FloatOps α) (fixed3 : α → String) (blocks : List (List α)) :
    (process_blocks ops blocks AudioVisualizer.fresh).peak_values
      = (blocks.drop (blocks.length - min blocks.length 10)).map (block_peak ops) ∧
    (process_blocks ops blocks AudioVisualizer.fresh).rms_values
      = (blocks.drop (blocks.length - min blocks.length 10)).map (block_rms ops) ∧
    ∀ (first : List α) (rest : List (List α)), blocks = first :: rest → rest.length = 10 →
      (process_blocks ops blocks AudioVisualizer.fresh).peak_values = rest.map (block_peak ops) ∧
      (process_blocks ops blocks AudioVisualizer.fresh).rms_values = rest.map (block_rms ops) ∧
      process_blocks ops blocks AudioVisualizer.fresh
        = process_blocks ops rest AudioVisualizer.fresh ∧
      print_stats_averages ops (process_blocks ops blocks AudioVisualizer.fresh)
        = print_stats_averages ops (process_blocks ops rest AudioVisualizer.fresh) ∧
      (print_stats ops fixed3 (process_blocks ops blocks AudioVisualizer.fresh)).1
        = (print_stats ops fixed3 (process_blocks ops rest AudioVisualizer.fresh)).1 := by
  obtain ⟨hp, hr⟩ := process_blocks_fresh ops blocks
  have hd : blocks.length - min blocks.length 10 = blocks.length - PEAK_HISTORY := by
    simp only [PEAK_HISTORY]; omega
  refine ⟨?_, ?_, ?_⟩
  · rw [hp, hd, List.map_drop]
  · rw [hr, hd, List.map_drop]
  · intro first rest hb hlen
    obtain ⟨hp2, hr2⟩ := process_blocks_fresh ops rest
    have e1 : (first :: rest).length - PEAK_HISTORY = 1 := by
      simp [PEAK_HISTORY, hlen]
    have e2 : rest.length - PEAK_HISTORY = 0 := by simp [PEAK_HISTORY, hlen]
    have hpv : (process_blocks ops blocks AudioVisualizer.fresh).peak_values
        = rest.map (block_peak ops) := by
      rw [hp, hb, e1]; simp
    have hrv : (process_blocks ops blocks AudioVisualizer.fresh).rms_values
        = rest.map (block_rms ops) := by
      rw [hr, hb, e1]; simp
    have hst : process_blocks ops blocks AudioVisualizer.fresh
        = process_blocks ops rest AudioVisualizer.fresh := by
      rw [e2] at hp2 hr2
      cases h1 : process_blocks ops blocks AudioVisualizer.fresh with
      | mk p r =>
        cases h2 : process_blocks ops rest AudioVisualizer.fresh with
        | mk p2 r2 =>
          rw [h1] at hpv hrv
          rw [h2] at hp2 hr2
          simp only at hpv hrv hp2 hr2
          rw [hpv, hrv, hp2, hr2]; simp
    exact ⟨hpv, hrv, hst, by rw [hst], by rw [hst]⟩

/-- The statement of C2 at eleven concrete blocks: the loud first block
leaves no trace once ten silent blocks followed it. -/
theorem C2_fifo_eviction_witness :
    process_blocks (exactOps Real.sqrt) (([1] : List ℝ) :: List.replicate 10 [0])
        AudioVisualizer.fresh
      = process_blocks (exactOps Real.sqrt) (List.replicate 10 [0])
        AudioVisualizer.fresh :=
  ((C2_fifo_eviction (exactOps Real.sqrt) (fun _ => "")
      ([1] :: List.replicate 10 [0])).2.2 [1] (List.replicate 10 [0]) rfl (by simp)).2.2.1

/-- C3, as the code has it: a zero-length block is not skipped.  In every
state `update_stats` with `len = 0` appends the peak `0.0f` to `peak_values`
and one entry to `rms_values`, and drops the first entry of each when
`peak_values` then holds more than `PEAK_HISTORY` entries.  What
`audio_callback` skips is a null input buffer: it leaves the visualizer as it
is and writes nothing, and every other buffer, of whatever length, goes to
`update_stats`. -/
theorem C3_zero_length_block_appends (ops : FloatOps α) (fixed3 showpos3 : α → String)
    (v : AudioVisualizer α) :
    (v.peak_values.length < PEAK_HISTORY →
      (update_stats ops [] v).peak_values = v.peak_values ++ [ops.zero] ∧
      ∃ r, (update_stats ops [] v).rms_values = v.rms_values ++ [r]) ∧
    (PEAK_HISTORY ≤ v.peak_values.length →
      (update_stats ops [] v).peak_values = (v.peak_values ++ [ops.zero]).tail ∧
      ∃ r, (update_stats ops [] v).rms_values = (v.rms_values ++ [r]).tail) ∧
    audio_callback ops fixed3 showpos3 none v = ("", v) ∧
    ∀ buf : List α, (audio_callback ops fixed3 showpos3 (some buf) v).2
      = update_stats ops buf v := by
  have hpk : block_peak ops [] = ops.zero := rfl
  refine ⟨?_, ?_, rfl, fun _ => rfl⟩
  · intro h
    have hc : ¬ PEAK_HISTORY < (v.peak_values ++ [block_peak ops []]).length := by
      simp; omega
    rw [update_stats_peak_values, update_stats_rms_values, if_neg hc, if_neg hc, hpk]
    exact ⟨rfl, _, rfl⟩
  · intro h
    have hc : PEAK_HISTORY < (v.peak_values ++ [block_peak ops []]).length := by
      simp; omega
    rw [update_stats_peak_values, update_stats_rms_values, if_pos hc, if_pos hc, hpk]
    exact ⟨rfl, _, rfl⟩

/-- C3 as stated fails: on a fresh visualizer a zero-length block changes both
histories; `peak_values` becomes `[0]` and `rms_values` gets one entry. -/
theorem C3_zero_length_block_counterexample :
    ¬ ((update_stats (exactOps Real.sqrt) [] AudioVisualizer.fresh).peak_values
          = (AudioVisualizer.fresh : AudioVisualizer ℝ).peak_values ∧
       (update_stats (exactOps Real.sqrt) [] AudioVisualizer.fresh).rms_values
          = (AudioVisualizer.fresh : AudioVisualizer ℝ).rms_values) := by
  intro h
  have h1 := h.1
  rw [update_stats_peak_values] at h1
  simp [AudioVisualizer.fresh, PEAK_HISTORY] at h1

/-- C8: the averages `print_stats` computes are, when `peak_values` is not
empty, the sum of the entries of `peak_values` (resp. `rms_values`), added
from the left starting at `0.0f`, divided by their count, in the arithmetic of
the program; in exact arithmetic, for vectors of one length, this is the
arithmetic mean of the entries.  When `peak_values` is empty both are `0.0f`,
so on a fresh visualizer.  The two vectors have the same length in every state
a fresh visualizer reaches, and the text `print_stats` returns shows these two
values. -/
theorem C8_averages_are_means (ops : FloatOps α) (fixed3 : α → String)
    (v : AudioVisualizer α) :
    (v.peak_values ≠ [] →
      (print_stats_averages ops v).1
        = ops.div (v.peak_values.foldl ops.add ops.zero) (ops.ofNat v.peak_values.length) ∧
      (print_stats_averages ops v).2
        = ops.div (v.rms_values.foldl ops.add ops.zero) (ops.ofNat v.rms_values.length)) ∧
    (v.peak_values = [] → print_stats_averages ops v = (ops.zero, ops.zero)) ∧
    print_stats_averages ops (AudioVisualizer.fresh : AudioVisualizer α) = (ops.zero, ops.zero) ∧
    (∀ blocks : List (List α),
      (process_blocks ops blocks AudioVisualizer.fresh).rms_values.length
        = (process_blocks ops blocks AudioVisualizer.fresh).peak_values.length) ∧
    (∀ w : AudioVisualizer ℝ, w.peak_values ≠ [] →
      w.rms_values.length = w.peak_values.length →
      print_stats_averages (exactOps Real.sqrt) w
        = (w.peak_values.sum / w.peak_values.length, w.rms_values.sum / w.rms_values.length)) ∧
    (print_stats ops fixed3 v).1
      = FG_CYAN ++ "Peak:" ++ fixed3 (print_stats_averages ops v).1 ++ " "
          ++ FG_MAGENTA ++ "RMS:" ++ fixed3 (print_stats_averages ops v).2 ++ RESET := by
  refine ⟨?_, ?_, rfl, ?_, fun w hw _ => exact_averages Real.sqrt w hw, rfl⟩
  · intro h
    have he : v.peak_values.isEmpty = false := by
      cases hv : v.peak_values with
      | nil => exact absurd hv h
      | cons a l => rfl
    simp [print_stats_averages, he]
  · intro h
    simp [print_stats_averages, h]
  · intro blocks
    obtain ⟨hp, hr⟩ := process_blocks_fresh ops blocks
    rw [hp, hr]; simp

/-- C9: `print_stats` only reads.  It hands back the visualizer unchanged, so
a second call right after the first computes the same averages and returns the
same text and state. -/
theorem C9_print_stats_pure_read (ops : FloatOps α) (fixed3 : α → String)
    (v : AudioVisualizer α) :
    (print_stats ops fixed3 v).2 = v ∧
    (print_stats ops fixed3 v).2.peak_values = v.peak_values ∧
    (print_stats ops fixed3 v).2.rms_values = v.rms_values ∧
    print_stats_averages ops (print_stats ops fixed3 v).2 = print_stats_averages ops v ∧
    print_stats ops fixed3 (print_stats ops fixed3 v).2 = print_stats ops fixed3 v :=
  ⟨rfl, rfl, rfl, rfl, rfl⟩

/-! ## Claims on the statistics of one block and on `get_color` -/

/-- C4: for a non-empty block the peak `update_stats` appends to
`peak_values` is the maximum of `|samples[i]|`: it is `≥ 0`, it is
`≥ |samples[i]|` for every index `i`, and it is `|samples[j]|` for some `j`.
Comparison and `std::abs` do not round: the peak in binary32 arithmetic is the
one in exact arithmetic. -/
theorem C4_peak_is_max_abs [LinearOrderedField α] [FloorRing α] (sqrt : α → α)
    (block : List α) (v : AudioVisualizer α) (hne : block ≠ []) :
    (update_stats (exactOps sqrt) block v).peak_values.getLast?
      = some (block_peak (exactOps sqrt) block) ∧
    0 ≤ block_peak (exactOps sqrt) block ∧
    (∀ i : Fin block.length, |block.get i| ≤ block_peak (exactOps sqrt) block) ∧
    (∃ j : Fin block.length, block_peak (exactOps sqrt) block = |block.get j|) ∧
    block_peak (binary32Ops sqrt) block = block_peak (exactOps sqrt) block ∧
    (update_stats (binary32Ops sqrt) block v).peak_values.getLast?
      = some (block_peak (exactOps sqrt) block) := by
  obtain ⟨h0, hub, hatt⟩ := exact_peak_spec sqrt block
  have h32 : block_peak (binary32Ops sqrt) block = block_peak (exactOps sqrt) block := by
    simp only [block_peak, update_stats_loop, update_stats_loop_split]
    rfl
  refine ⟨update_stats_last _ _ _, h0, ?_, ?_, h32, ?_⟩
  · intro i
    exact hub _ (List.get_mem block i.1 i.2)
  · obtain ⟨x, hx, hpx⟩ := hatt hne
    obtain ⟨j, hj⟩ := List.get_of_mem hx
    exact ⟨j, by rw [hj]; exact hpx⟩
  · rw [← h32]; exact update_stats_last _ _ _

/-- C4 at the block of the specification: `[0.5, -0.2, 0.05, -0.9]` has
peak `0.9`, the absolute value of its last sample. -/
theorem C4_peak_is_max_abs_witness :
    ([0.5, -0.2, 0.05, -0.9] : List ℝ) ≠ [] ∧
    block_peak (exactOps Real.sqrt) [0.5, -0.2, 0.05, -0.9] = 0.9 ∧
    (update_stats (exactOps Real.sqrt) [0.5, -0.2, 0.05, -0.9]
      AudioVisualizer.fresh).peak_values.getLast? = some 0.9 ∧
    ∀ i : Fin 4, |([0.5, -0.2, 0.05, -0.9] : List ℝ).get i| ≤ 0.9 := by
  have hpk : block_peak (exactOps Real.sqrt) [0.5, -0.2, 0.05, -0.9] = 0.9 := by
    rw [exact_peak_fold]
    norm_num [List.foldl, abs_of_pos, abs_of_neg]
  have h := C4_peak_is_max_abs Real.sqrt ([0.5, -0.2, 0.05, -0.9] : List ℝ)
    AudioVisualizer.fresh (by simp)
  rw [hpk] at h
  exact ⟨by simp, hpk, h.1, h.2.2.1⟩

/-- C6: `get_color` depends on `|value|` only and splits the values into four
bands with four different answers: `|v| ≤ 0.1` quiet (white, dim),
`0.1 < |v| ≤ 0.3` low (green), `0.3 < |v| ≤ 0.6` medium (yellow), `0.6 < |v|`
high (red, bright).  The values `0.1`, `0.3`, `0.6` and their negations fall in
the lower band; `0.5` is medium, `-0.2` low, `0.05` quiet, `-0.9` high.  With
the constants read in single precision (`0.1f`, `0.3f`, `0.6f`) the same four
bands hold with those constants as the limits, the constants themselves and
their negations in the lower band. -/
theorem C6_get_color_bands [LinearOrderedField α] (sqrt : α → α) (v w : α) (u u2 : ℝ) :
    ((|v| = |w| → get_color (exactOps sqrt) v = get_color (exactOps sqrt) w) ∧
      (get_color (exactOps sqrt) v = FG_WHITE ++ DIM ↔ |v| ≤ 0.1) ∧
      (get_color (exactOps sqrt) v = FG_GREEN ↔ 0.1 < |v| ∧ |v| ≤ 0.3) ∧
      (get_color (exactOps sqrt) v = FG_YELLOW ↔ 0.3 < |v| ∧ |v| ≤ 0.6) ∧
      (get_color (exactOps sqrt) v = FG_RED ++ BRIGHT ↔ 0.6 < |v|)) ∧
    (get_color (exactOps sqrt) (0.1 : α) = FG_WHITE ++ DIM ∧
      get_color (exactOps sqrt) (-0.1 : α) = FG_WHITE ++ DIM ∧
      get_color (exactOps sqrt) (0.3 : α) = FG_GREEN ∧
      get_color (exactOps sqrt) (-0.3 : α) = FG_GREEN ∧
      get_color (exactOps sqrt) (0.6 : α) = FG_YELLOW ∧
      get_color (exactOps sqrt) (-0.6 : α) = FG_YELLOW) ∧
    (get_color (exactOps sqrt) (0.5 : α) = FG_YELLOW ∧
      get_color (exactOps sqrt) (-0.2 : α) = FG_GREEN ∧
      get_color (exactOps sqrt) (0.05 : α) = FG_WHITE ++ DIM ∧
      get_color (exactOps sqrt) (-0.9 : α) = FG_RED ++ BRIGHT) ∧
    ((|u| = |u2| →
        get_color (binary32Ops Real.sqrt) u = get_color (binary32Ops Real.sqrt) u2) ∧
      (get_color (binary32Ops Real.sqrt) u = FG_WHITE ++ DIM
        ↔ |u| ≤ COLOR_THRESH_LOW (binary32Ops Real.sqrt)) ∧
      (get_color (binary32Ops Real.sqrt) u = FG_GREEN
        ↔ COLOR_THRESH_LOW (binary32Ops Real.sqrt) < |u| ∧
          |u| ≤ COLOR_THRESH_MED (binary32Ops Real.sqrt)) ∧
      (get_color (binary32Ops Real.sqrt) u = FG_YELLOW
        ↔ COLOR_THRESH_MED (binary32Ops Real.sqrt) < |u| ∧
          |u| ≤ COLOR_THRESH_HIGH (binary32Ops Real.sqrt)) ∧
      (get_color (binary32Ops Real.sqrt) u = FG_RED ++ BRIGHT
        ↔ COLOR_THRESH_HIGH (binary32Ops Real.sqrt) < |u|)) ∧
    (get_color (binary32Ops Real.sqrt) (COLOR_THRESH_LOW (binary32Ops Real.sqrt))
        = FG_WHITE ++ DIM ∧
      get_color (binary32Ops Real.sqrt) (-COLOR_THRESH_LOW (binary32Ops Real.sqrt))
        = FG_WHITE ++ DIM ∧
      get_color (binary32Ops Real.sqrt) (COLOR_THRESH_MED (binary32Ops Real.sqrt))
        = FG_GREEN ∧
      get_color (binary32Ops Real.sqrt) (-COLOR_THRESH_MED (binary32Ops Real.sqrt))
        = FG_GREEN ∧
      get_color (binary32Ops Real.sqrt) (COLOR_THRESH_HIGH (binary32Ops Real.sqrt))
        = FG_YELLOW ∧
      get_color (binary32Ops Real.sqrt) (-COLOR_THRESH_HIGH (binary32Ops Real.sqrt))
        = FG_YELLOW) := by
  have e1 : (0.1 : α) = 1 / 10 := by norm_num
  have e3 : (0.3 : α) = 3 / 10 := by norm_num
  have e6 : (0.6 : α) = 6 / 10 := by norm_num
  obtain ⟨hl, hm, hh⟩ := binary32_thresholds
  refine ⟨⟨?_, ?_⟩, ?_, ?_, ⟨?_, ?_⟩, ?_⟩
  · intro h
    rw [exact_get_color, exact_get_color, h]
  · rw [exact_get_color, e1, e3, e6]
    exact color_chain (1 / 10) (3 / 10) (6 / 10) |v| (by norm_num) (by norm_num)
  · simp only [exact_get_color]
    norm_num [abs_of_pos]
  · simp only [exact_get_color]
    norm_num [abs_of_pos]
  · intro h
    rw [binary32_get_color, binary32_get_color, h]
  · rw [binary32_get_color, hl, hm, hh]
    exact color_chain _ _ _ |u| (by norm_num) (by norm_num)
  · simp only [binary32_get_color, hl, hm, hh]
    norm_num [abs_of_pos]

/-- C7: `get_color` is monotonic in the band order quiet < low < medium <
high: when `|x| ≤ |y|` the band of `x` is at most the band of `y`, in exact
comparison with the decimal thresholds and with the single-precision ones. -/
theorem C7_get_color_monotonic (x y : ℝ) (hxy : |x| ≤ |y|) :
    band_rank (get_color (exactOps Real.sqrt) x) ≤ band_rank (get_color (exactOps Real.sqrt) y) ∧
    band_rank (get_color (binary32Ops Real.sqrt) x)
      ≤ band_rank (get_color (binary32Ops Real.sqrt) y) := by
  rw [exact_band_rank, exact_band_rank, binary32_band_rank, binary32_band_rank]
  constructor
  · split_ifs <;> first | omega | (exfalso; linarith)
  · split_ifs <;> first | omega | (exfalso; linarith)

/-- C7 at the samples `-0.2` (low) and `0.5` (medium). -/
theorem C7_get_color_monotonic_witness :
    |(-0.2 : ℝ)| ≤ |(0.5 : ℝ)| ∧
    band_rank (get_color (exactOps Real.sqrt) (-0.2 : ℝ)) = 1 ∧
    band_rank (get_color (exactOps Real.sqrt) (0.5 : ℝ)) = 2 ∧
    band_rank (get_color (exactOps Real.sqrt) (-0.2 : ℝ))
      ≤ band_rank (get_color (exactOps Real.sqrt) (0.5 : ℝ)) := by
  have h : |(-0.2 : ℝ)| ≤ |(0.5 : ℝ)| := by norm_num [abs_of_pos]
  refine ⟨h, ?_, ?_, (C7_get_color_monotonic (-0.2) 0.5 h).1⟩
  · rw [exact_band_rank]; norm_num [abs_of_pos]
  · rw [exact_band_rank]; norm_num [abs_of_pos]

/-! ## Claims on the RMS and on the averages in exact arithmetic -/

/-- C5, as the code has it: for a non-empty block the RMS `update_stats`
appends to `rms_values` is `std::sqrt(sum_sq / len)`, with `sum_sq` the squares
of the samples added from the left starting at `0.0f`, in the arithmetic of
the program.  In exact arithmetic this is `sqrt (sum_i samples[i]^2 / len)`,
it is `≥ 0`, and it is `0` if and only if every sample is `0`.  In binary32
arithmetic it is `≥ 0` and it is `0` when every sample is `0`. -/
theorem C5_rms_of_block (ops : FloatOps ℝ) (block : List ℝ) (v : AudioVisualizer ℝ)
    (hne : block ≠ []) :
    ((update_stats ops block v).rms_values = v.rms_values ++ [block_rms ops block] ∨
      (update_stats ops block v).rms_values = (v.rms_values ++ [block_rms ops block]).tail) ∧
    block_rms ops block
      = ops.sqrt (ops.div (block.foldl (fun t x => ops.add t (ops.mul x x)) ops.zero)
          (ops.ofNat block.length)) ∧
    block_rms (exactOps Real.sqrt) block
      = Real.sqrt ((block.map (fun x => x ^ 2)).sum / (block.length : ℝ)) ∧
    0 ≤ block_rms (exactOps Real.sqrt) block ∧
    (block_rms (exactOps Real.sqrt) block = 0 ↔ ∀ x ∈ block, x = 0) ∧
    0 ≤ block_rms (binary32Ops Real.sqrt) block ∧
    ((∀ x ∈ block, x = 0) → block_rms (binary32Ops Real.sqrt) block = 0) := by
  have hlen : (0 : ℝ) < block.length := by
    have : 0 < block.length := List.length_pos.2 hne
    exact_mod_cast this
  have hsq : (fun x : ℝ => x ^ 2) = (fun x : ℝ => x * x) := by
    funext x; ring
  refine ⟨update_stats_rms_appended ops block v, ?_, ?_, ?_, ?_, binary32_rms_nonneg block,
    binary32_rms_zeros block⟩
  · rw [block_rms, update_stats_loop, update_stats_loop_split]
  · rw [hsq, exact_rms]
  · rw [exact_rms]; exact Real.sqrt_nonneg _
  · rw [exact_rms, Real.sqrt_eq_zero', div_le_iff₀ hlen, zero_mul, ← sum_sq_eq_zero_iff]
    exact ⟨fun h => le_antisymm h (sum_sq_nonneg block), fun h => le_of_eq h⟩

/-- C5 at the block of the specification: `[0.5, -0.2, 0.05, -0.9]` has the
exact RMS `sqrt (1.1025 / 4) = 0.525`, not zero. -/
theorem C5_rms_of_block_witness :
    ([0.5, -0.2, 0.05, -0.9] : List ℝ) ≠ [] ∧
    block_rms (exactOps Real.sqrt) [0.5, -0.2, 0.05, -0.9] = 0.525 ∧
    block_rms (exactOps Real.sqrt) [0.5, -0.2, 0.05, -0.9] ≠ 0 := by
  have h := C5_rms_of_block (exactOps Real.sqrt) ([0.5, -0.2, 0.05, -0.9] : List ℝ)
    AudioVisualizer.fresh (by simp)
  have hv : block_rms (exactOps Real.sqrt) [0.5, -0.2, 0.05, -0.9] = 0.525 := by
    rw [h.2.2.1]
    have e : (List.map (fun x : ℝ => x ^ 2) [0.5, -0.2, 0.05, -0.9]).sum
        / (([0.5, -0.2, 0.05, -0.9] : List ℝ).length : ℝ) = 0.525 ^ 2 := by
      norm_num
    rw [e]
    exact Real.sqrt_sq (by norm_num)
  refine ⟨by simp, hv, ?_⟩
  rw [hv]; norm_num

/-- C5 as stated fails in the program's single precision: `2 ^ (-100)` is a
binary32 value and not zero, its square `2 ^ (-200)` rounds to zero, and so
the block `[2 ^ (-100)]` gets the RMS `0`. -/
theorem C5_rms_zero_iff_counterexample :
    roundF32 ((2 : ℝ) ^ (-100 : ℤ)) = 2 ^ (-100 : ℤ) ∧
    ¬ (block_rms (binary32Ops Real.sqrt) [(2 : ℝ) ^ (-100 : ℤ)] = 0 ↔
        ∀ x ∈ [(2 : ℝ) ^ (-100 : ℤ)], x = 0) := by
  refine ⟨roundF32_zpow (-100) (by norm_num), ?_⟩
  intro h
  have h1 := h.1 binary32_rms_underflow _ (List.mem_singleton_self _)
  have h2 : (0 : ℝ) < 2 ^ (-100 : ℤ) := by positivity
  linarith

/-- C10, as the code has it: the inequality holds in exact arithmetic, not
for the values the program rounds.  For a non-empty block the peak
`update_stats` appends is computed without rounding (the single-precision peak
is the exact one), and the exact RMS `sqrt (sum_i samples[i]^2 / len)` of the
block is at most that peak.  For a run of non-empty blocks from a fresh
visualizer the program's `peak_values` is the exact one, and in exact
arithmetic the average RMS of `print_stats` is at most its average peak. -/
theorem C10_rms_le_peak (block : List ℝ) (blocks : List (List ℝ)) (hne : block ≠ [])
    (hall : ∀ b ∈ blocks, b ≠ []) :
    block_peak (binary32Ops Real.sqrt) block = block_peak (exactOps Real.sqrt) block ∧
    Real.sqrt ((block.map (fun x => x ^ 2)).sum / (block.length : ℝ))
      ≤ block_peak (binary32Ops Real.sqrt) block ∧
    block_rms (exactOps Real.sqrt) block ≤ block_peak (exactOps Real.sqrt) block ∧
    (process_blocks (binary32Ops Real.sqrt) blocks AudioVisualizer.fresh).peak_values
      = (process_blocks (exactOps Real.sqrt) blocks AudioVisualizer.fresh).peak_values ∧
    (print_stats_averages (exactOps Real.sqrt)
        (process_blocks (exactOps Real.sqrt) blocks AudioVisualizer.fresh)).2
      ≤ (print_stats_averages (exactOps Real.sqrt)
        (process_blocks (exactOps Real.sqrt) blocks AudioVisualizer.fresh)).1 := by
  have h32 : ∀ l : List ℝ,
      block_peak (binary32Ops Real.sqrt) l = block_peak (exactOps Real.sqrt) l := by
    intro l
    simp only [block_peak, update_stats_loop, update_stats_loop_split]
    rfl
  have hsq : (fun x : ℝ => x ^ 2) = (fun x : ℝ => x * x) := by
    funext x; ring
  have hle := exact_rms_le_peak block hne
  refine ⟨h32 block, ?_, hle, ?_, ?_⟩
  · rw [h32 block, hsq, ← exact_rms]; exact hle
  · have hf : block_peak (binary32Ops Real.sqrt) = block_peak (exactOps Real.sqrt) :=
      funext h32
    rw [(process_blocks_fresh (binary32Ops Real.sqrt) blocks).1,
      (process_blocks_fresh (exactOps Real.sqrt) blocks).1, hf]
  · obtain ⟨hp, hr⟩ := process_blocks_fresh (exactOps Real.sqrt) blocks
    rw [← List.map_drop] at hp hr
    by_cases hemp :
        (process_blocks (exactOps Real.sqrt) blocks AudioVisualizer.fresh).peak_values = []
    · have h0 : print_stats_averages (exactOps Real.sqrt)
          (process_blocks (exactOps Real.sqrt) blocks AudioVisualizer.fresh)
            = ((exactOps Real.sqrt).zero, (exactOps Real.sqrt).zero) := by
        simp only [print_stats_averages, hemp, List.isEmpty_nil, if_true]
      rw [h0]
    · rw [exact_averages Real.sqrt _ hemp, hp, hr]
      simp only [List.length_map]
      apply div_le_div_of_nonneg_right _ (Nat.cast_nonneg _)
      apply List.sum_le_sum
      intro b hb
      exact exact_rms_le_peak b (hall b (List.mem_of_mem_drop hb))

/-- C10 at the block `[3, 4]` and the run `[3, 4], [1]`: the exact RMS
`sqrt (25 / 2)` of the block is at most the peak the program appends. -/
theorem C10_rms_le_peak_witness :
    ([3, 4] : List ℝ) ≠ [] ∧ (∀ b ∈ ([[3, 4], [1]] : List (List ℝ)), b ≠ []) ∧
    Real.sqrt (25 / 2) ≤ block_peak (binary32Ops Real.sqrt) [3, 4] ∧
    (print_stats_averages (exactOps Real.sqrt)
        (process_blocks (exactOps Real.sqrt) [[3, 4], [1]] AudioVisualizer.fresh)).2
      ≤ (print_stats_averages (exactOps Real.sqrt)
        (process_blocks (exactOps Real.sqrt) [[3, 4], [1]] AudioVisualizer.fresh)).1 := by
  have h1 : ([3, 4] : List ℝ) ≠ [] := by simp
  have h2 : ∀ b ∈ ([[3, 4], [1]] : List (List ℝ)), b ≠ [] := by simp
  have h := C10_rms_le_peak [3, 4] [[3, 4], [1]] h1 h2
  refine ⟨h1, h2, ?_, h.2.2.2.2⟩
  have h3 := h.2.1
  have e : (List.map (fun x : ℝ => x ^ 2) [3, 4]).sum / (([3, 4] : List ℝ).length : ℝ)
      = 25 / 2 := by norm_num
  rw [e] at h3
  exact h3

/-- C10 as stated fails for the values the program computes: `7 * 2 ^ (-77)`
is a binary32 value, its square rounds up to `2 ^ (-148)` on the subnormal
grid, so the block `[7 * 2 ^ (-77)]` gets the RMS `2 ^ (-74)` above its peak
`7 * 2 ^ (-77)`, and after that one block the average RMS of `print_stats` is
above its average peak. -/
theorem C10_rms_le_peak_counterexample :
    roundF32 ((7 : ℝ) * 2 ^ (-77 : ℤ)) = 7 * 2 ^ (-77 : ℤ) ∧
    ¬ (block_rms (binary32Ops Real.sqrt) [(7 : ℝ) * 2 ^ (-77 : ℤ)]
        ≤ block_peak (binary32Ops Real.sqrt) [(7 : ℝ) * 2 ^ (-77 : ℤ)]) ∧
    ¬ ((print_stats_averages (binary32Ops Real.sqrt)
          (process_blocks (binary32Ops Real.sqrt) [[(7 : ℝ) * 2 ^ (-77 : ℤ)]]
            AudioVisualizer.fresh)).2
        ≤ (print_stats_averages (binary32Ops Real.sqrt)
          (process_blocks (binary32Ops Real.sqrt) [[(7 : ℝ) * 2 ^ (-77 : ℤ)]]
            AudioVisualizer.fresh)).1) := by
  obtain ⟨hr, hp⟩ := binary32_rms_rounds_up
  have hlt : (7 : ℝ) * 2 ^ (-77 : ℤ) < 2 ^ (-74 : ℤ) := by norm_num
  refine ⟨roundF32_sample, ?_, ?_⟩
  · rw [hr, hp]; exact not_le.2 hlt
  · rw [binary32_averages_round_up]; exact not_le.2 hlt

end MicThing
